import Mathlib

/-!
Shallow embedding of the pattern playback engine and patch hot-reload
subsystem of `acid_looper_curses.py` (classes `PatchLoader`,
`TempoController`, `AcidLooperCurses`, `AcidPlayer`).

Python JSON values are modelled by `Json`; Python dicts keyed by strings
are modelled by association lists (first-match lookup, insert replaces in
place or appends, mirroring dict update semantics; key order is never
observed by the embedded code except through explicit sorting).
Filesystem contents seen by one `scan_patches` call are modelled by a
`FS` value; wall-clock instants (`time.time()`, `st_mtime`) are rationals.
MIDI output and `time.sleep` calls are recorded as an event trace.
-/

/-- JSON values as produced by `json.load`. Numbers are restricted to
integers, which covers every field the program reads (pitches,
velocities). -/
inductive Json where
  | null : Json
  | bool (b : Bool) : Json
  | num (n : Int) : Json
  | str (s : String) : Json
  | arr (xs : List Json) : Json
  | obj (kvs : List (String × Json)) : Json

mutual

/-- Structural decidable equality on JSON values (Python `==`). -/
def Json.decEq : (a b : Json) → Decidable (a = b)
  | .null, .null => isTrue rfl
  | .bool x, .bool y =>
      if h : x = y then isTrue (h ▸ rfl)
      else isFalse (fun hc => h (Json.bool.inj hc))
  | .num x, .num y =>
      if h : x = y then isTrue (h ▸ rfl)
      else isFalse (fun hc => h (Json.num.inj hc))
  | .str x, .str y =>
      if h : x = y then isTrue (h ▸ rfl)
      else isFalse (fun hc => h (Json.str.inj hc))
  | .arr xs, .arr ys =>
      match Json.decEqList xs ys with
      | isTrue h => isTrue (h ▸ rfl)
      | isFalse h => isFalse (fun hc => h (Json.arr.inj hc))
  | .obj xs, .obj ys =>
      match Json.decEqObj xs ys with
      | isTrue h => isTrue (h ▸ rfl)
      | isFalse h => isFalse (fun hc => h (Json.obj.inj hc))
  | .null, .bool _ => isFalse (fun h => Json.noConfusion h)
  | .null, .num _ => isFalse (fun h => Json.noConfusion h)
  | .null, .str _ => isFalse (fun h => Json.noConfusion h)
  | .null, .arr _ => isFalse (fun h => Json.noConfusion h)
  | .null, .obj _ => isFalse (fun h => Json.noConfusion h)
  | .bool _, .null => isFalse (fun h => Json.noConfusion h)
  | .bool _, .num _ => isFalse (fun h => Json.noConfusion h)
  | .bool _, .str _ => isFalse (fun h => Json.noConfusion h)
  | .bool _, .arr _ => isFalse (fun h => Json.noConfusion h)
  | .bool _, .obj _ => isFalse (fun h => Json.noConfusion h)
  | .num _, .null => isFalse (fun h => Json.noConfusion h)
  | .num _, .bool _ => isFalse (fun h => Json.noConfusion h)
  | .num _, .str _ => isFalse (fun h => Json.noConfusion h)
  | .num _, .arr _ => isFalse (fun h => Json.noConfusion h)
  | .num _, .obj _ => isFalse (fun h => Json.noConfusion h)
  | .str _, .null => isFalse (fun h => Json.noConfusion h)
  | .str _, .bool _ => isFalse (fun h => Json.noConfusion h)
  | .str _, .num _ => isFalse (fun h => Json.noConfusion h)
  | .str _, .arr _ => isFalse (fun h => Json.noConfusion h)
  | .str _, .obj _ => isFalse (fun h => Json.noConfusion h)
  | .arr _, .null => isFalse (fun h => Json.noConfusion h)
  | .arr _, .bool _ => isFalse (fun h => Json.noConfusion h)
  | .arr _, .num _ => isFalse (fun h => Json.noConfusion h)
  | .arr _, .str _ => isFalse (fun h => Json.noConfusion h)
  | .arr _, .obj _ => isFalse (fun h => Json.noConfusion h)
  | .obj _, .null => isFalse (fun h => Json.noConfusion h)
  | .obj _, .bool _ => isFalse (fun h => Json.noConfusion h)
  | .obj _, .num _ => isFalse (fun h => Json.noConfusion h)
  | .obj _, .str _ => isFalse (fun h => Json.noConfusion h)
  | .obj _, .arr _ => isFalse (fun h => Json.noConfusion h)

/-- Decidable equality on JSON arrays. -/
def Json.decEqList : (a b : List Json) → Decidable (a = b)
  | [], [] => isTrue rfl
  | [], _ :: _ => isFalse (fun h => List.noConfusion h)
  | _ :: _, [] => isFalse (fun h => List.noConfusion h)
  | x :: xs, y :: ys =>
      match Json.decEq x y with
      | isFalse h1 => isFalse (fun hc => h1 (List.cons.inj hc).1)
      | isTrue h1 =>
          match Json.decEqList xs ys with
          | isTrue h2 => isTrue (by rw [h1, h2])
          | isFalse h2 => isFalse (fun hc => h2 (List.cons.inj hc).2)

/-- Decidable equality on JSON object member lists. -/
def Json.decEqObj : (a b : List (String × Json)) → Decidable (a = b)
  | [], [] => isTrue rfl
  | [], _ :: _ => isFalse (fun h => List.noConfusion h)
  | _ :: _, [] => isFalse (fun h => List.noConfusion h)
  | (k, v) :: xs, (l, w) :: ys =>
      if h1 : k = l then
        (match Json.decEq v w with
          | isFalse h2 => isFalse (fun hc => h2 (congrArg Prod.snd (List.cons.inj hc).1))
          | isTrue h2 =>
              match Json.decEqObj xs ys with
              | isTrue h3 => isTrue (by rw [h1, h2, h3])
              | isFalse h3 => isFalse (fun hc => h3 (List.cons.inj hc).2))
      else isFalse (fun hc => h1 (congrArg Prod.fst (List.cons.inj hc).1))

end

instance : DecidableEq Json := Json.decEq

/-- First-match association-list lookup (`dict.get` / `dict[k]`). -/
def alist_lookup {α : Type} : List (String × α) → String → Option α
  | [], _ => none
  | (k, v) :: rest, key => if k = key then some v else alist_lookup rest key

/-- Dict update `d[k] = v`: replace the existing entry in place, or append. -/
def alist_insert {α : Type} : List (String × α) → String → α → List (String × α)
  | [], key, v => [(key, v)]
  | (k, w) :: rest, key, v =>
      if k = key then (k, v) :: rest else (k, w) :: alist_insert rest key v

/-- The module-level constant `PATCH_KEYS = "qwertyuiopasdfghjklzxcvbnm"` (module-level constant). -/
def PATCH_KEYS : List Char := "qwertyuiopasdfghjklzxcvbnm".toList

/-- One stored patch: the dict built in `PatchLoader.scan_patches`.
`name` and `description` keep whatever JSON value the file held (the
source performs no type check on them); each bass step is the 3-tuple
`(note, vel, label)` and each drum step is `(drum_hits, "drums_<i>")`. -/
structure Patch where
  name : Json
  description : Json
  bass_pattern : List (Json × Json × Json)
  drum_pattern : List (List (Json × Json) × String)
  file : String
deriving DecidableEq

/-- Member lookup `data[key]` on a JSON value: succeeds only on objects
holding the key (otherwise Python raises `TypeError`/`KeyError`, which
`scan_patches` turns into a skip). -/
def Json.get? : Json → String → Option Json
  | .obj kvs, key => alist_lookup kvs key
  | _, _ => none

/-- Python `data.get(key, default)` on a parsed JSON object. -/
def Json.getD (j : Json) (key : String) (default : Json) : Json :=
  (j.get? key).getD default

/-- The comprehension `[(note, vel, label) for note, vel, label in data['bass_pattern']]`:
every element must unpack into exactly three values, i.e. be a
3-element array. -/
def parse_bass : Json → Option (List (Json × Json × Json))
  | .arr xs => xs.mapM fun x =>
      match x with
      | .arr [a, b, c] => some (a, b, c)
      | _ => none
  | _ => none

/-- The comprehension `[(hit[0], hit[1]) for hit in step_data]`: each hit must be indexable
at 0 and 1, i.e. an array of length at least two (extra elements are
ignored by the source). -/
def parse_drum_step : Json → Option (List (Json × Json))
  | .arr hits => hits.mapM fun h =>
      match h with
      | .arr (a :: b :: _) => some (a, b)
      | _ => none
  | _ => none

/-- Numbering loop over `data['drum_pattern']['steps']`, appending
`(drum_hits, f"drums_{len(drum_pattern)}")` per step. -/
def parse_drum_steps : List Json → Nat → Option (List (List (Json × Json) × String))
  | [], _ => some []
  | s :: rest, i => do
      let hits ← parse_drum_step s
      let tail ← parse_drum_steps rest (i + 1)
      some ((hits, "drums_" ++ toString i) :: tail)

/-- The guard `if 'drum_pattern' in data and 'steps' in data['drum_pattern']`:
when `drum_pattern` is absent, or present as an object without a
`steps` key, the drum pattern stays empty; when present as an object
with `steps`, the steps are parsed; any other shape makes the `in` test
or the subsequent indexing raise in Python, i.e. the parse fails. -/
def parse_drums (data : Json) : Option (List (List (Json × Json) × String)) :=
  match data.get? "drum_pattern" with
  | none =>
      match data with
      | .obj _ => some []
      | _ => none
  | some dp =>
      match dp with
      | .obj kvs =>
          match alist_lookup kvs "steps" with
          | some (.arr steps) => parse_drum_steps steps 0
          | some _ => none
          | none => some []
      | _ => none

/-- The per-file body of `PatchLoader.scan_patches` (the `try` block):
parse one JSON document into a patch dict, `none` meaning any exception
was raised and the file is skipped. `stem` is the filename stem. -/
def parse_patch (stem : String) (data? : Option Json) : Option Patch := do
  let data ← data?
  let bp ← data.get? "bass_pattern"
  let bass ← parse_bass bp
  let drums ← parse_drums data
  let name ← data.get? "name"
  some { name := name
         description := data.getD "description" (.str "")
         bass_pattern := bass
         drum_pattern := drums
         file := stem }

/-- One JSON file as seen by a scan: its stem, its `st_mtime`, and its
content (`none` when `json.load` itself fails on it). -/
structure FileInfo where
  stem : String
  mtime : ℚ
  data : Option Json
deriving DecidableEq

/-- The patches directory at scan time: whether it exists and, in
lexicographic filename order (`sorted(glob("*.json"))`), its files. -/
structure FS where
  dirExists : Bool
  files : List FileInfo

/-- State of `PatchLoader`: `patches`, `patch_keys_map`, `last_scan_time`. -/
structure PatchLoaderState where
  patches : List (String × Patch)
  patch_keys_map : List (Char × String)
  last_scan_time : ℚ
deriving DecidableEq

/-- State after `PatchLoader.__init__`: empty store, empty key map, watermark 0. -/
def PatchLoaderState.init : PatchLoaderState :=
  { patches := [], patch_keys_map := [], last_scan_time := 0 }

/-- Python's `sorted` on the pattern-id strings: lexicographic by
Unicode code point, matching Lean's `String` order. -/
def sortStrings (l : List String) : List String :=
  l.insertionSort (fun a b => a ≤ b)

/-- Loop body of `PatchLoader._update_key_mapping`: `for idx, patch_name
in enumerate(sorted_patches): if idx < len(PATCH_KEYS):
self.patch_keys_map[PATCH_KEYS[idx]] = patch_name`. The dict built is
the list of `(key, id)` pairs (the idx-indexed keys are distinct). -/
def build_keys_map : List String → Nat → List (Char × String)
  | [], _ => []
  | name :: rest, idx =>
      if h : idx < PATCH_KEYS.length then
        (PATCH_KEYS.get ⟨idx, h⟩, name) :: build_keys_map rest (idx + 1)
      else
        build_keys_map rest (idx + 1)

/-- Embedding of `PatchLoader._update_key_mapping`. -/
def update_key_mapping (st : PatchLoaderState) : PatchLoaderState :=
  { st with patch_keys_map := build_keys_map (sortStrings (st.patches.map Prod.fst)) 0 }

/-- The per-file loop of `PatchLoader.scan_patches`: for each JSON file
in order, if its stem is unseen or its mtime exceeds the watermark,
parse it and on success upsert the patch and set the changed flag;
parse failure skips the file silently. Returns the updated `patches`
dict and the changed flag. -/
def scan_fold (watermark : ℚ) :
    List FileInfo → List (String × Patch) → Bool → List (String × Patch) × Bool
  | [], ps, ch => (ps, ch)
  | f :: rest, ps, ch =>
      if (alist_lookup ps f.stem).isNone ∨ f.mtime > watermark then
        match parse_patch f.stem f.data with
        | some p => scan_fold watermark rest (alist_insert ps f.stem p) true
        | none => scan_fold watermark rest ps ch
      else
        scan_fold watermark rest ps ch

/-- Embedding of `PatchLoader.scan_patches`: returns the changed flag and the updated
loader state. When the directory does not exist it returns `False`
immediately without touching any state. Otherwise it processes every
file, deletes stored patches whose source stem is gone, advances the
watermark to `now`, and recomputes the key mapping. -/
def scan_patches (fs : FS) (now : ℚ) (st : PatchLoaderState) : Bool × PatchLoaderState :=
  if fs.dirExists = false then
    (false, st)
  else
    let current_files := fs.files.map FileInfo.stem
    let folded := scan_fold st.last_scan_time fs.files st.patches false
    let deleted := (folded.1.map Prod.fst).filter (fun k => ¬ k ∈ current_files)
    let ps2 := folded.1.filter (fun kv => kv.1 ∈ current_files)
    let ch2 := folded.2 ∨ deleted ≠ []
    (ch2, update_key_mapping { patches := ps2, patch_keys_map := st.patch_keys_map,
                               last_scan_time := now })

/-- Char-keyed dict lookup for `patch_keys_map`. -/
def clist_lookup {α : Type} : List (Char × α) → Char → Option α
  | [], _ => none
  | (k, v) :: rest, key => if k = key then some v else clist_lookup rest key

/-- Embedding of `PatchLoader.get_patch_by_key`: `patch_name = self.patch_keys_map.get(key);
if patch_name: return self.patches[patch_name]; return None`. An empty
string is falsy in Python, hence the explicit test. -/
def get_patch_by_key (st : PatchLoaderState) (key : Char) : Option Patch :=
  match clist_lookup st.patch_keys_map key with
  | some patch_name =>
      if patch_name = "" then none else alist_lookup st.patches patch_name
  | none => none

/-- Embedding of `PatchLoader.get_all_patches`: walk `PATCH_KEYS` in order, keeping
the keys present in the mapping paired with their stored patch (the
mapping is always rebuilt from the store, so the inner `self.patches[...]`
lookup cannot miss; a miss is modelled as skipping the entry). -/
def get_all_patches (st : PatchLoaderState) : List (Char × Patch) :=
  PATCH_KEYS.filterMap fun key =>
    match clist_lookup st.patch_keys_map key with
    | some patch_name => (alist_lookup st.patches patch_name).map (fun p => (key, p))
    | none => none

/-- Embedding of `PatchLoader.get_first_patch`. -/
def get_first_patch (st : PatchLoaderState) : Option (Char × Patch) :=
  (get_all_patches st).head?

/-- State of `TempoController`; `min_bpm`/`max_bpm`/`step` are set to
60/180/1 by `__init__` and never reassigned. -/
structure TempoController where
  bpm : Int
  min_bpm : Int
  max_bpm : Int
  step : Int
deriving DecidableEq

/-- Embedding of `TempoController.__init__(initial_bpm)`. -/
def TempoController.init (initial_bpm : Int) : TempoController :=
  { bpm := initial_bpm, min_bpm := 60, max_bpm := 180, step := 1 }

/-- Embedding of `TempoController.increase`. -/
def TempoController.increase (t : TempoController) : TempoController :=
  { t with bpm := min (t.bpm + t.step) t.max_bpm }

/-- Embedding of `TempoController.decrease`. -/
def TempoController.decrease (t : TempoController) : TempoController :=
  { t with bpm := max (t.bpm - t.step) t.min_bpm }

/-- Embedding of `TempoController.get_step_duration_ms`: `(60000 / self.bpm) / 4`,
recomputed from the current `bpm` on every call. -/
def TempoController.get_step_duration_ms (t : TempoController) : ℚ :=
  (60000 / (t.bpm : ℚ)) / 4

/-- Observable effects of the engine: MIDI messages sent by
`AcidPlayer` (bass channel 1, rhythm channel 9) and `time.sleep`
calls (seconds). -/
inductive MidiEvent where
  | noteOn (channel : Nat) (note vel : Json)
  | noteOff (channel : Nat) (note : Json)
  | sleepSec (s : ℚ)
deriving DecidableEq

/-- Embedding of `AcidPlayer.bass_note_on` (channel 1). -/
def bass_note_on (note vel : Json) : MidiEvent := .noteOn 1 note vel

/-- Embedding of `AcidPlayer.bass_note_off` (channel 1). -/
def bass_note_off (note : Json) : MidiEvent := .noteOff 1 note

/-- Embedding of `AcidPlayer.drum_note_on` (channel 9). -/
def drum_note_on (note vel : Json) : MidiEvent := .noteOn 9 note vel

/-- Embedding of `AcidPlayer.drum_note_off` (channel 9). -/
def drum_note_off (note : Json) : MidiEvent := .noteOff 9 note

/-- One keyboard event as classified by the dispatch chain in
`play_pattern_loop` (`ESC` / `KEY_RESIZE` / `KEY_UP` / `KEY_DOWN` /
any other key, carried as its character). -/
inductive KeyEvent where
  | esc : KeyEvent
  | resize : KeyEvent
  | keyUp : KeyEvent
  | keyDown : KeyEvent
  | char (c : Char) : KeyEvent
deriving DecidableEq

/-- The `AcidLooperCurses` mutable state touched by the playback loop
(`stdscr`, `player` and `patch_loader` are collaborators; display
rows are presentation only). -/
structure LooperState where
  tempo : TempoController
  current_patch_key : Option Char
  next_patch : Option Patch
  next_patch_key : Option Char
  running : Bool
  needs_full_redraw : Bool
deriving DecidableEq

/-- Initial transient state set by `AcidLooperCurses.__init__` (tempo 90, nothing
queued, running). -/
def initLooperState (k : Option Char) : LooperState :=
  { tempo := TempoController.init 90, current_patch_key := k,
    next_patch := none, next_patch_key := none,
    running := true, needs_full_redraw := false }

/-- The `key = self.stdscr.getch()` dispatch chain in
`play_pattern_loop`. `none` models `getch() == -1`. Returns the state
after the branch and whether the ESC branch fired (which sets
`running = False` and returns `False` from the pass). For an ordinary
key, the char is lowercased; if it is in `PATCH_KEYS` and maps to a
patch, the patch is queued (a truthy patch dict is modelled by `isSome`)
and a redraw is requested. -/
def process_input (loader : PatchLoaderState) (st : LooperState) :
    Option KeyEvent → LooperState × Bool
  | none => (st, false)
  | some .esc => ({ st with running := false }, true)
  | some .resize => ({ st with needs_full_redraw := true }, false)
  | some .keyUp => ({ st with tempo := st.tempo.increase }, false)
  | some .keyDown => ({ st with tempo := st.tempo.decrease }, false)
  | some (.char c) =>
      let ch := c.toLower
      if ch ∈ PATCH_KEYS then
        match get_patch_by_key loader ch with
        | some new_patch =>
            ({ st with next_patch := some new_patch, next_patch_key := some ch,
                       needs_full_redraw := true }, false)
        | none => (st, false)
      else
        (st, false)

/-- The drum hits used at a step: `drum_pattern[step_idx][0]` when
`step_idx < len(drum_pattern)`, else the empty list (the source guards
each access with exactly this bound check). -/
def hits_at (drum_pattern : List (List (Json × Json) × String)) (idx : Nat) :
    List (Json × Json) :=
  if h : idx < drum_pattern.length then (drum_pattern.get ⟨idx, h⟩).1 else []

/-- The MIDI/sleep effects of one non-aborted step of
`play_pattern_loop`: drum note-ons, bass note-on, the tempo-derived
hold (`sleep(ms / 1000)`), bass note-off, drum note-offs, and the fixed
`sleep(0.01)` inter-step gap. -/
def step_effects (hits : List (Json × Json)) (note vel : Json) (durMs : ℚ) :
    List MidiEvent :=
  hits.map (fun h => drum_note_on h.1 h.2)
    ++ [bass_note_on note vel, .sleepSec (durMs / 1000), bass_note_off note]
    ++ hits.map (fun h => drum_note_off h.1)
    ++ [.sleepSec (1 / 100)]

/-- Result of one `play_pattern_loop` call: the final looper state, the
emitted effect trace, and the return value (`True` when the pass ran to
completion, `False` when ESC aborted it). -/
structure PassResult where
  st : LooperState
  trace : List MidiEvent
  completed : Bool
deriving DecidableEq

/-- The `for step_idx, (note, velocity, label) in enumerate(bass_pattern)`
loop of `play_pattern_loop`, from index `idx` on. `inputs` supplies what
`getch` returns at each successive step. Each step first serves a
pending redraw (clearing the flag), then dispatches at most one input
event (ESC returns immediately), then plays the step. -/
def play_steps (loader : PatchLoaderState)
    (drum_pattern : List (List (Json × Json) × String)) :
    List (Json × Json × Json) → Nat → List (Option KeyEvent) → LooperState → PassResult
  | [], _, _, st => ⟨st, [], true⟩
  | (note, vel, _label) :: rest, idx, inputs, st =>
      let st1 := if st.needs_full_redraw then { st with needs_full_redraw := false } else st
      let pr := process_input loader st1 (inputs.headD none)
      if pr.2 then ⟨pr.1, [], false⟩
      else
        let ev := step_effects (hits_at drum_pattern idx) note vel
                    pr.1.tempo.get_step_duration_ms
        let r := play_steps loader drum_pattern rest (idx + 1) inputs.tail pr.1
        ⟨r.st, ev ++ r.trace, r.completed⟩

/-- Embedding of `AcidLooperCurses.play_pattern_loop(patch, current_patch)` (the
`current_patch` argument only feeds `draw_ui`). -/
def play_pattern_loop (loader : PatchLoaderState) (patch : Patch)
    (inputs : List (Option KeyEvent)) (st : LooperState) : PassResult :=
  play_steps loader patch.drum_pattern patch.bass_pattern 0 inputs st

/-- The Python `for key, patch in get_all_patches(): if patch ==
current_patch: self.current_patch_key = key; break` search. -/
def find_key_for : List (Char × Patch) → Patch → Option Char
  | [], _ => none
  | (k, q) :: rest, p => if q = p then some k else find_key_for rest p

/-- The loop-boundary block of `AcidLooperCurses.run`: when a patch is
queued, install it as current, clear the queue, look up the slot key
whose stored patch equals the new current patch (keeping the old
`current_patch_key` when none matches), and clear `next_patch_key`. -/
def run_boundary (loader : PatchLoaderState) (current_patch : Patch)
    (st : LooperState) : Patch × LooperState :=
  match st.next_patch with
  | none => (current_patch, st)
  | some p =>
      let key' := match find_key_for (get_all_patches loader) p with
                  | some k => some k
                  | none => st.current_patch_key
      (p, { st with next_patch := none, current_patch_key := key',
                    next_patch_key := none })

/-- One outer-loop iteration schedule for `run`: `none` when less than a
second has passed (no rescan), `some (fs, now)` when `scan_patches` runs
against directory contents `fs` at wall-clock time `now`. -/
def OuterSchedule := List (Option (FS × ℚ))

/-- The `while self.running` loop of `AcidLooperCurses.run`, bounded by
`fuel` iterations: optionally rescan (a change requests a redraw), play
one pass, stop if it aborted, otherwise apply the loop-boundary swap. -/
def run_loop : Nat → PatchLoaderState → Patch → LooperState →
    OuterSchedule → List (List (Option KeyEvent)) → List MidiEvent
  | 0, _, _, _, _, _ => []
  | fuel + 1, loader, current_patch, st, scans, inputs =>
      let rescan :=
        match scans.headD none with
        | some (fs, now) =>
            let sc := scan_patches fs now loader
            (sc.2, if sc.1 then { st with needs_full_redraw := true } else st)
        | none => (loader, st)
      let r := play_pattern_loop rescan.1 current_patch (inputs.headD []) rescan.2
      if r.completed = false then r.trace
      else
        let swapped := run_boundary rescan.1 current_patch r.st
        r.trace ++ run_loop fuel rescan.1 swapped.1 swapped.2 scans.tail inputs.tail

/-- How `AcidLooperCurses.run` starts: either the no-patches error path
(message shown, function returns before the loop) or entry into the
playback loop with the first slotted patch. -/
inductive RunStart where
  | noPatches (message : String) : RunStart
  | started (key : Char) (patch : Patch) : RunStart
deriving DecidableEq

/-- Embedding of `AcidLooperCurses.run`: initial `scan_patches`, then either the
no-patches error return (empty trace, loop never entered) or the
playback loop driven from the first patch. -/
def run (fuel : Nat) (fs : FS) (now : ℚ) (st0 : PatchLoaderState)
    (scans : OuterSchedule) (inputs : List (List (Option KeyEvent))) :
    RunStart × List MidiEvent :=
  let st1 := (scan_patches fs now st0).2
  match get_first_patch st1 with
  | none => (.noPatches "ERROR: No patches found in patches/ directory!", [])
  | some (key, patch) =>
      (.started key patch,
       run_loop fuel st1 patch (initLooperState (some key)) scans inputs)

/-! ## Trace analysis definitions

These definitions are not part of the embedded program; they observe
the emitted trace (which notes a step turns on, and which notes are
sounding after a prefix of the trace has been emitted). -/

/-- The `(pitch, velocity)` pairs of the drum-channel note-on events in
a trace. -/
def drum_ons_of (evs : List MidiEvent) : List (Json × Json) :=
  evs.filterMap fun e =>
    match e with
    | .noteOn 9 n v => some (n, v)
    | _ => none

/-- Remove the first occurrence of `x` from a list. -/
def remove_first {α : Type} [DecidableEq α] (x : α) : List α → List α
  | [] => []
  | y :: ys => if y = x then ys else y :: remove_first x ys

/-- Effect of one MIDI event on the multiset of sounding
`(channel, pitch)` notes: a note-on adds the note, a note-off releases
one matching occurrence, a sleep changes nothing. -/
def apply_event (a : List (Nat × Json)) : MidiEvent → List (Nat × Json)
  | .noteOn ch n _ => (ch, n) :: a
  | .noteOff ch n => remove_first (ch, n) a
  | .sleepSec _ => a

/-- Sounding notes after emitting `evs`, starting from `a`. -/
def active_after (a : List (Nat × Json)) (evs : List MidiEvent) : List (Nat × Json) :=
  evs.foldl apply_event a

/-! ## Concrete fixtures used by witnesses and scenario theorems -/

/-- A minimal well-formed definition document:
`{"name":"T","bass_pattern":[[36,100,"C"]]}`. -/
def minimal_doc : Json :=
  .obj [("name", .str "T"),
        ("bass_pattern", .arr [.arr [.num 36, .num 100, .str "C"]])]

/-- The patch `minimal_doc` parses to (stem `s`). -/
def minimal_patch (s : String) : Patch :=
  { name := .str "T", description := .str "",
    bass_pattern := [(.num 36, .num 100, .str "C")],
    drum_pattern := [], file := s }

/-- Single-file directory for the C9 scenario. -/
def fsT : FS := ⟨true, [⟨"t", 1, some minimal_doc⟩]⟩

/-- A patch with a two-step bass line and a three-step drum sequence
(drum sequence longer than the bass sequence). -/
def mismatch_patch : Patch :=
  { name := .str "M", description := .str "",
    bass_pattern := [(.num 36, .num 100, .str "a"), (.num 38, .num 90, .str "b")],
    drum_pattern := [([(.num 42, .num 75)], "drums_0"), ([], "drums_1"),
                     ([(.num 46, .num 80)], "drums_2")],
    file := "m" }

/-- A loader holding `minimal_patch "a"` under stem `"a"`, slot `'q'`. -/
def loaderA : PatchLoaderState :=
  { patches := [("a", minimal_patch "a")],
    patch_keys_map := [('q', "a")],
    last_scan_time := 1 }

/-- Thirty well-formed definition files with distinct stems. -/
def files30 : List FileInfo :=
  (List.range 30).map fun i => ⟨"p" ++ toString i, 1, some minimal_doc⟩

/-! ## General helper lemmas -/

theorem tempo_increase_iterate (t : TempoController) (hmax : t.max_bpm = 180)
    (hstep : t.step = 1) (hle : t.bpm ≤ 180) :
    ∀ n : ℕ, (TempoController.increase^[n] t).bpm = min (t.bpm + n) 180 ∧
      (TempoController.increase^[n] t).max_bpm = 180 ∧
      (TempoController.increase^[n] t).step = 1 := by
  intro n
  induction n with
  | zero =>
      refine ⟨?_, hmax, hstep⟩
      simp only [Function.iterate_zero, id_eq, Nat.cast_zero, add_zero]
      omega
  | succ n ih =>
      obtain ⟨h1, h2, h3⟩ := ih
      rw [Function.iterate_succ_apply']
      refine ⟨?_, h2, h3⟩
      simp only [TempoController.increase, h1, h2, h3]
      push_cast
      omega

theorem tempo_decrease_iterate (t : TempoController) (hmin : t.min_bpm = 60)
    (hstep : t.step = 1) (hge : 60 ≤ t.bpm) :
    ∀ n : ℕ, (TempoController.decrease^[n] t).bpm = max (t.bpm - n) 60 ∧
      (TempoController.decrease^[n] t).min_bpm = 60 ∧
      (TempoController.decrease^[n] t).step = 1 := by
  intro n
  induction n with
  | zero =>
      refine ⟨?_, hmin, hstep⟩
      simp only [Function.iterate_zero, id_eq, Nat.cast_zero, sub_zero]
      omega
  | succ n ih =>
      obtain ⟨h1, h2, h3⟩ := ih
      rw [Function.iterate_succ_apply']
      refine ⟨?_, h2, h3⟩
      simp only [TempoController.decrease, h1, h2, h3]
      push_cast
      omega

/-! ## C6 -/

/-- C6: for every bpm in [60,180], `get_step_duration_ms` returns
exactly `(60000 / bpm) / 4`, recomputed from the current state on each
call (it is a function of the live `bpm`, so a tempo change shows up in
the very next call); `increase` sets bpm to `min (bpm+1) 180` and
`decrease` to `max (bpm-1) 60`, and repeated calls saturate exactly at
the bounds and never overshoot. -/
theorem C6_tempo_bounds_and_duration (b : Int) (hlo : 60 ≤ b) (hhi : b ≤ 180) :
    (TempoController.init b).get_step_duration_ms = (60000 / (b : ℚ)) / 4 ∧
    (∀ t : TempoController, t.get_step_duration_ms = (60000 / (t.bpm : ℚ)) / 4) ∧
    ((TempoController.init b).increase).bpm = min (b + 1) 180 ∧
    ((TempoController.init b).decrease).bpm = max (b - 1) 60 ∧
    (∀ n : ℕ, (TempoController.increase^[n] (TempoController.init b)).bpm
        = min (b + n) 180) ∧
    (∀ n : ℕ, (TempoController.decrease^[n] (TempoController.init b)).bpm
        = max (b - n) 60) := by
  refine ⟨rfl, fun t => rfl, ?_, ?_, ?_, ?_⟩
  · simp [TempoController.init, TempoController.increase]
  · simp [TempoController.init, TempoController.decrease]
  · intro n
    exact (tempo_increase_iterate (TempoController.init b) rfl rfl hhi n).1
  · intro n
    exact (tempo_decrease_iterate (TempoController.init b) rfl rfl hlo n).1

/-- Witness for C6 at bpm 90: the duration formula holds, and 200
increases or decreases saturate exactly at 180 and 60. -/
theorem C6_witness :
    (TempoController.init 90).get_step_duration_ms = (60000 / (90 : ℚ)) / 4 ∧
    (TempoController.increase^[200] (TempoController.init 90)).bpm = 180 ∧
    (TempoController.decrease^[200] (TempoController.init 90)).bpm = 60 := by
  have h := C6_tempo_bounds_and_duration 90 (by norm_num) (by norm_num)
  refine ⟨h.1, ?_, ?_⟩
  · rw [h.2.2.2.2.1 200]; norm_num
  · rw [h.2.2.2.2.2 200]; norm_num

/-! ## C9 -/

/-- C9: scanning a single file holding
`{"name":"T","bass_pattern":[[36,100,"C"]]}` (no description, no
drum_pattern) stores a pattern whose description is the empty string
and whose drum step sequence is empty. -/
theorem C9_defaults_for_absent_fields :
    alist_lookup (scan_patches fsT 2 PatchLoaderState.init).2.patches "t"
        = some (minimal_patch "t") ∧
    (minimal_patch "t").description = .str "" ∧
    (minimal_patch "t").drum_pattern = [] := by
  refine ⟨rfl, rfl, rfl⟩

theorem alist_insert_lookup_ne {α : Type} {ps : List (String × α)} {k k' : String}
    (v : α) (h : k' ≠ k) :
    alist_lookup (alist_insert ps k v) k' = alist_lookup ps k' := by
  induction ps with
  | nil => simp [alist_insert, alist_lookup, Ne.symm h]
  | cons a rest ih =>
      obtain ⟨ak, aw⟩ := a
      by_cases hak : ak = k
      · subst hak
        simp [alist_insert, alist_lookup, Ne.symm h]
      · simp only [alist_insert, if_neg hak, alist_lookup]
        by_cases hak' : ak = k'
        · simp [hak']
        · simp [hak', ih]

theorem alist_insert_mem_fst {α : Type} {ps : List (String × α)} {k k' : String}
    (v : α) :
    k' ∈ (alist_insert ps k v).map Prod.fst ↔ k' ∈ ps.map Prod.fst ∨ k' = k := by
  induction ps with
  | nil => simp [alist_insert]
  | cons a rest ih =>
      obtain ⟨ak, aw⟩ := a
      by_cases hak : ak = k
      · subst hak
        simp [alist_insert]
        tauto
      · simp only [alist_insert, if_neg hak, List.map_cons, List.mem_cons, ih]
        tauto

theorem alist_lookup_isSome_of_mem {α : Type} {ps : List (String × α)} {k : String}
    (h : k ∈ ps.map Prod.fst) : (alist_lookup ps k).isSome := by
  induction ps with
  | nil => simp at h
  | cons a rest ih =>
      obtain ⟨ak, aw⟩ := a
      simp only [List.map_cons, List.mem_cons] at h
      by_cases hak : ak = k
      · simp [alist_lookup, hak]
      · rcases h with h | h
        · exact absurd h.symm hak
        · simp [alist_lookup, hak, ih h]

theorem scan_fold_changed_mono (wm : ℚ) (files : List FileInfo)
    (ps : List (String × Patch)) : (scan_fold wm files ps true).2 = true := by
  induction files generalizing ps with
  | nil => rfl
  | cons f rest ih =>
      simp only [scan_fold]
      by_cases hc : (alist_lookup ps f.stem).isNone ∨ f.mtime > wm
      · rw [if_pos hc]
        cases hp : parse_patch f.stem f.data with
        | some p => exact ih _
        | none => exact ih _
      · rw [if_neg hc]
        exact ih _

theorem scan_fold_changed_iff (wm : ℚ) (files : List FileInfo)
    (ps : List (String × Patch)) (ch : Bool) :
    (scan_fold wm files ps ch).2 = true ↔
      ch = true ∨ ∃ f ∈ files,
        ((alist_lookup ps f.stem).isNone ∨ f.mtime > wm) ∧
        (parse_patch f.stem f.data).isSome := by
  induction files generalizing ps with
  | nil => simp [scan_fold]
  | cons f rest ih =>
      simp only [scan_fold]
      by_cases hc : (alist_lookup ps f.stem).isNone ∨ f.mtime > wm
      · rw [if_pos hc]
        cases hp : parse_patch f.stem f.data with
        | some p =>
            rw [scan_fold_changed_mono]
            simp only [true_iff, List.mem_cons]
            right
            exact ⟨f, Or.inl rfl, hc, by simp [hp]⟩
        | none =>
            rw [ih]
            simp only [List.mem_cons]
            constructor
            · rintro (h | ⟨g, hg, hcond, hsome⟩)
              · exact Or.inl h
              · exact Or.inr ⟨g, Or.inr hg, hcond, hsome⟩
            · rintro (h | ⟨g, hg | hg, hcond, hsome⟩)
              · exact Or.inl h
              · subst hg; simp [hp] at hsome
              · exact Or.inr ⟨g, hg, hcond, hsome⟩
      · rw [if_neg hc]
        rw [ih]
        simp only [List.mem_cons]
        constructor
        · rintro (h | ⟨g, hg, hcond, hsome⟩)
          · exact Or.inl h
          · exact Or.inr ⟨g, Or.inr hg, hcond, hsome⟩
        · rintro (h | ⟨g, hg | hg, hcond, hsome⟩)
          · exact Or.inl h
          · subst hg; exact absurd hcond hc
          · exact Or.inr ⟨g, hg, hcond, hsome⟩

theorem scan_fold_mem_mono (wm : ℚ) (files : List FileInfo)
    (ps : List (String × Patch)) (ch : Bool) {k : String}
    (h : k ∈ ps.map Prod.fst) :
    k ∈ (scan_fold wm files ps ch).1.map Prod.fst := by
  induction files generalizing ps ch with
  | nil => exact h
  | cons f rest ih =>
      simp only [scan_fold]
      by_cases hc : (alist_lookup ps f.stem).isNone ∨ f.mtime > wm
      · rw [if_pos hc]
        cases hp : parse_patch f.stem f.data with
        | some p => exact ih _ _ ((alist_insert_mem_fst p).2 (Or.inl h))
        | none => exact ih _ _ h
      · rw [if_neg hc]
        exact ih _ _ h

theorem scan_fold_mem (wm : ℚ) (files : List FileInfo)
    (ps : List (String × Patch)) (ch : Bool) {k : String}
    (h : k ∈ (scan_fold wm files ps ch).1.map Prod.fst) :
    k ∈ ps.map Prod.fst ∨ k ∈ files.map FileInfo.stem := by
  induction files generalizing ps ch with
  | nil => exact Or.inl h
  | cons f rest ih =>
      simp only [scan_fold] at h
      simp only [List.map_cons, List.mem_cons]
      by_cases hc : (alist_lookup ps f.stem).isNone ∨ f.mtime > wm
      · rw [if_pos hc] at h
        cases hp : parse_patch f.stem f.data with
        | some p =>
            rw [hp] at h
            rcases ih _ _ h with h' | h'
            · rcases (alist_insert_mem_fst p).1 h' with h'' | h''
              · exact Or.inl h''
              · exact Or.inr (Or.inl h'')
            · exact Or.inr (Or.inr h')
        | none =>
            rw [hp] at h
            rcases ih _ _ h with h' | h'
            · exact Or.inl h'
            · exact Or.inr (Or.inr h')
      · rw [if_neg hc] at h
        rcases ih _ _ h with h' | h'
        · exact Or.inl h'
        · exact Or.inr (Or.inr h')

theorem scan_fold_lookup_skip (wm : ℚ) (files : List FileInfo)
    (ps : List (String × Patch)) (ch : Bool) {k : String}
    (h : ∀ g ∈ files, g.stem = k → parse_patch g.stem g.data = none) :
    alist_lookup (scan_fold wm files ps ch).1 k = alist_lookup ps k := by
  induction files generalizing ps ch with
  | nil => rfl
  | cons f rest ih =>
      simp only [scan_fold]
      have hrest : ∀ g ∈ rest, g.stem = k → parse_patch g.stem g.data = none :=
        fun g hg => h g (List.mem_cons_of_mem f hg)
      by_cases hc : (alist_lookup ps f.stem).isNone ∨ f.mtime > wm
      · rw [if_pos hc]
        cases hp : parse_patch f.stem f.data with
        | some p =>
            have hne : k ≠ f.stem := by
              intro he
              have := h f (List.mem_cons_self f rest) he.symm
              rw [this] at hp
              exact Option.noConfusion hp
            rw [ih _ _ hrest, alist_insert_lookup_ne p hne]
        | none => exact ih _ _ hrest
      · rw [if_neg hc]
        exact ih _ _ hrest

theorem alist_lookup_filter_mem {α : Type} {l : List String}
    {ps : List (String × α)} {k : String} (h : k ∈ l) :
    alist_lookup (ps.filter fun kv => kv.1 ∈ l) k = alist_lookup ps k := by
  induction ps with
  | nil => rfl
  | cons a rest ih =>
      obtain ⟨ak, aw⟩ := a
      by_cases hak : ak = k
      · subst hak
        simp [List.filter_cons, h, alist_lookup]
      · by_cases hmem : ak ∈ l
        · simp [List.filter_cons, hmem, alist_lookup, hak, ih]
        · simp [List.filter_cons, hmem, alist_lookup, hak, ih]

theorem alist_lookup_filter_not_mem {α : Type} {l : List String}
    {ps : List (String × α)} {k : String} (h : k ∉ l) :
    alist_lookup (ps.filter fun kv => kv.1 ∈ l) k = none := by
  induction ps with
  | nil => rfl
  | cons a rest ih =>
      obtain ⟨ak, aw⟩ := a
      by_cases hmem : ak ∈ l
      · have hak : ak ≠ k := fun he => h (he ▸ hmem)
        simp [List.filter_cons, hmem, alist_lookup, hak, ih]
      · simp [List.filter_cons, hmem, ih]

/-! ## C2 -/

/-- C2: `scan_patches` returns `True` iff it performed an addition,
update, or removal of a stored pattern: with the directory present,
the flag is set exactly when some file that is unseen or newer than the
watermark parses successfully (add/update), or some stored stem no
longer has a source file (removal); deleting a previously scanned file
makes the next scan return `True` and removes the pattern from lookup
by id. (The embedded `scan_patches` is a total function, so no
exception can escape it.) -/
theorem C2_scan_change_detection (fs : FS) (now : ℚ) (st : PatchLoaderState) :
    ((scan_patches fs now st).1 = true ↔
      fs.dirExists = true ∧
        ((∃ f ∈ fs.files,
            ((alist_lookup st.patches f.stem).isNone ∨ f.mtime > st.last_scan_time) ∧
            (parse_patch f.stem f.data).isSome) ∨
         (∃ k ∈ st.patches.map Prod.fst, k ∉ fs.files.map FileInfo.stem))) ∧
    (∀ k, fs.dirExists = true → k ∈ st.patches.map Prod.fst →
       k ∉ fs.files.map FileInfo.stem →
       (scan_patches fs now st).1 = true ∧
       alist_lookup (scan_patches fs now st).2.patches k = none) := by
  have main : (scan_patches fs now st).1 = true ↔
      fs.dirExists = true ∧
        ((∃ f ∈ fs.files,
            ((alist_lookup st.patches f.stem).isNone ∨ f.mtime > st.last_scan_time) ∧
            (parse_patch f.stem f.data).isSome) ∨
         (∃ k ∈ st.patches.map Prod.fst, k ∉ fs.files.map FileInfo.stem)) := by
    cases hdir : fs.dirExists with
    | false => simp [scan_patches, hdir]
    | true =>
        simp only [scan_patches, hdir]
        simp only [Bool.true_eq_false, if_false, decide_eq_true_eq, true_and]
        rw [scan_fold_changed_iff]
        simp only [Bool.false_eq_true, false_or]
        constructor
        · rintro (h | h)
          · exact Or.inl h
          · right
            rw [Ne, List.filter_eq_nil_iff] at h
            push_neg at h
            obtain ⟨k, hk, hkp⟩ := h
            simp only [decide_eq_true_eq] at hkp
            rcases scan_fold_mem _ _ _ _ hk with h' | h'
            · exact ⟨k, h', hkp⟩
            · exact absurd h' hkp
        · rintro (h | ⟨k, hk, hkp⟩)
          · exact Or.inl h
          · right
            rw [Ne, List.filter_eq_nil_iff]
            push_neg
            refine ⟨k, scan_fold_mem_mono _ _ _ _ hk, ?_⟩
            simp [hkp]
  refine ⟨main, ?_⟩
  intro k hdir hk hknot
  constructor
  · exact main.2 ⟨hdir, Or.inr ⟨k, hk, hknot⟩⟩
  · simp only [scan_patches, hdir, Bool.true_eq_false, if_false, update_key_mapping]
    exact alist_lookup_filter_not_mem hknot

/-- Witness for C2: with a store holding pattern `"a"` and a scan of a
directory no longer containing its file, `scan_patches` returns `True`
and the pattern is gone from lookup by id. -/
theorem C2_witness :
    (scan_patches ⟨true, []⟩ 5 loaderA).1 = true ∧
    alist_lookup (scan_patches ⟨true, []⟩ 5 loaderA).2.patches "a" = none :=
  (C2_scan_change_detection ⟨true, []⟩ 5 loaderA).2 "a" rfl (by decide) (by decide)

/-! ## C5 -/

/-- C5: for every source file whose parse fails, `scan_patches` (a total
function: no exception propagates) skips the file: lookup by its stem is
exactly what it was before the scan — the previously stored version (if
any) remains, and on a first sighting nothing is added. -/
theorem C5_parse_failure_skips_file (fs : FS) (now : ℚ) (st : PatchLoaderState)
    (f : FileInfo) (hf : f ∈ fs.files)
    (hparse : parse_patch f.stem f.data = none)
    (hnd : (fs.files.map FileInfo.stem).Nodup) :
    alist_lookup (scan_patches fs now st).2.patches f.stem
      = alist_lookup st.patches f.stem := by
  cases hdir : fs.dirExists with
  | false => simp [scan_patches, hdir]
  | true =>
      simp only [scan_patches, hdir, Bool.true_eq_false, if_false, update_key_mapping]
      have hskip : ∀ g ∈ fs.files, g.stem = f.stem → parse_patch g.stem g.data = none := by
        intro g hg he
        have : g = f := List.inj_on_of_nodup_map hnd hg hf he
        rw [this]
        exact hparse
      rw [alist_lookup_filter_mem (List.mem_map_of_mem FileInfo.stem hf)]
      exact scan_fold_lookup_skip _ _ _ _ hskip

/-- Witness for C5: a malformed file (`json.load` fails) whose stem has
a previously stored version; after the scan the old version is still
the one returned, and a malformed first sighting adds nothing. -/
theorem C5_witness :
    alist_lookup (scan_patches ⟨true, [⟨"a", 9, none⟩]⟩ 10 loaderA).2.patches "a"
        = some (minimal_patch "a") ∧
    alist_lookup (scan_patches ⟨true, [⟨"b", 9, none⟩]⟩ 10 PatchLoaderState.init).2.patches "b"
        = none := by
  constructor
  · have h := C5_parse_failure_skips_file ⟨true, [⟨"a", 9, none⟩]⟩ 10 loaderA
      ⟨"a", 9, none⟩ (by decide) rfl (by decide)
    rw [h]
    decide
  · have h := C5_parse_failure_skips_file ⟨true, [⟨"b", 9, none⟩]⟩ 10 PatchLoaderState.init
      ⟨"b", 9, none⟩ (by decide) rfl (by decide)
    rw [h]
    decide

/-! ## C4 helper lemmas -/

theorem build_keys_map_eq_zip : ∀ (l : List String) (i : ℕ),
    build_keys_map l i = (PATCH_KEYS.drop i).zip l := by
  intro l
  induction l with
  | nil => intro i; simp [build_keys_map]
  | cons s rest ih =>
      intro i
      simp only [build_keys_map]
      by_cases h : i < PATCH_KEYS.length
      · rw [dif_pos h, ih, List.drop_eq_getElem_cons h, List.zip_cons_cons]
        rfl
      · rw [dif_neg h, ih]
        have h1 : PATCH_KEYS.drop i = [] := List.drop_eq_nil_of_le (by omega)
        have h2 : PATCH_KEYS.drop (i + 1) = [] := List.drop_eq_nil_of_le (by omega)
        rw [h1, h2]
        simp

theorem sortStrings_sorted (l : List String) :
    List.Sorted (fun a b : String => a ≤ b) (sortStrings l) :=
  List.sorted_insertionSort _ l

theorem sortStrings_perm (l : List String) : (sortStrings l).Perm l :=
  List.perm_insertionSort _ l

theorem sortStrings_eq_of_perm {l1 l2 : List String} (h : l1.Perm l2) :
    sortStrings l1 = sortStrings l2 :=
  List.eq_of_perm_of_sorted
    ((sortStrings_perm l1).trans (h.trans (sortStrings_perm l2).symm))
    (sortStrings_sorted l1) (sortStrings_sorted l2)

theorem sortStrings_length (l : List String) : (sortStrings l).length = l.length :=
  (sortStrings_perm l).length_eq

theorem scan_patches_keys_map (fs : FS) (now : ℚ) (st : PatchLoaderState)
    (hdir : fs.dirExists = true) :
    (scan_patches fs now st).2.patch_keys_map
      = PATCH_KEYS.zip (sortStrings ((scan_patches fs now st).2.patches.map Prod.fst)) := by
  simp only [scan_patches, hdir, Bool.true_eq_false, if_false, update_key_mapping]
  rw [build_keys_map_eq_zip]
  rfl

/-! ## C4 -/

/-- C4: after every scan of an existing directory, the slot map is the
fixed 26-symbol slot alphabet zipped against the lexicographically
sorted list of stored pattern ids — the i-th sorted id holds the i-th
key; it is a pure function of the id set (any rescan whose resulting id
set is a permutation of this one yields the identical slot map); and
with 30 stored patterns exactly 26 slots are assigned while every
stored id remains retrievable by id lookup. -/
theorem C4_slot_assignment (fs : FS) (now : ℚ) (st : PatchLoaderState)
    (hdir : fs.dirExists = true) :
    (scan_patches fs now st).2.patch_keys_map
        = PATCH_KEYS.zip (sortStrings ((scan_patches fs now st).2.patches.map Prod.fst)) ∧
    (∀ (fs2 : FS) (now2 : ℚ) (st2 : PatchLoaderState), fs2.dirExists = true →
        ((scan_patches fs2 now2 st2).2.patches.map Prod.fst).Perm
          ((scan_patches fs now st).2.patches.map Prod.fst) →
        (scan_patches fs2 now2 st2).2.patch_keys_map
          = (scan_patches fs now st).2.patch_keys_map) ∧
    (∀ (i : ℕ) (h1 : i < PATCH_KEYS.length)
        (h2 : i < (sortStrings ((scan_patches fs now st).2.patches.map Prod.fst)).length),
        (PATCH_KEYS.get ⟨i, h1⟩,
         (sortStrings ((scan_patches fs now st).2.patches.map Prod.fst)).get ⟨i, h2⟩)
          ∈ (scan_patches fs now st).2.patch_keys_map) ∧
    (((scan_patches fs now st).2.patches.map Prod.fst).length = 30 →
        (scan_patches fs now st).2.patch_keys_map.length = 26 ∧
        ∀ k ∈ (scan_patches fs now st).2.patches.map Prod.fst,
          (alist_lookup (scan_patches fs now st).2.patches k).isSome = true) := by
  have hmap := scan_patches_keys_map fs now st hdir
  refine ⟨hmap, ?_, ?_, ?_⟩
  · intro fs2 now2 st2 hdir2 hperm
    rw [scan_patches_keys_map fs2 now2 st2 hdir2, hmap, sortStrings_eq_of_perm hperm]
  · intro i h1 h2
    rw [hmap]
    have hz : i < (PATCH_KEYS.zip
        (sortStrings ((scan_patches fs now st).2.patches.map Prod.fst))).length := by
      rw [List.length_zip]
      omega
    have hgt := List.get?_eq_get hz
    simp only [List.get_eq_getElem] at hgt ⊢
    rw [List.getElem_zip] at hgt
    exact List.get?_mem hgt
  · intro h30
    constructor
    · rw [hmap, List.length_zip, sortStrings_length, h30]
      rfl
    · intro k hk
      rw [alist_lookup_isSome_of_mem hk]

/-- Witness for C4: scanning thirty well-formed files into an empty
store assigns exactly 26 slots, and an id beyond the 26th (here the
lexicographically last, `"p9"`) is still retrievable by id. -/
theorem C4_witness :
    (scan_patches ⟨true, files30⟩ 2 PatchLoaderState.init).2.patch_keys_map.length = 26 ∧
    (alist_lookup (scan_patches ⟨true, files30⟩ 2 PatchLoaderState.init).2.patches "p9").isSome
      = true := by
  have h := C4_slot_assignment ⟨true, files30⟩ 2 PatchLoaderState.init rfl
  have h4 := h.2.2.2 (by decide)
  exact ⟨h4.1, h4.2 "p9" (by decide)⟩

/-! ## Trace analysis helper lemmas -/

theorem active_after_append (a : List (Nat × Json)) (l1 l2 : List MidiEvent) :
    active_after a (l1 ++ l2) = active_after (active_after a l1) l2 :=
  List.foldl_append _ _ _ _

theorem remove_first_perm {α : Type} [DecidableEq α] {x : α} {l : List α}
    (h : x ∈ l) : l.Perm (x :: remove_first x l) := by
  induction l with
  | nil => simp at h
  | cons y ys ih =>
      by_cases hyx : y = x
      · subst hyx
        simp [remove_first]
      · have hx : x ∈ ys := by
          rcases List.mem_cons.1 h with h' | h'
          · exact absurd h'.symm hyx
          · exact h'
        have h1 : (y :: ys).Perm (y :: x :: remove_first x ys) := (ih hx).cons y
        have h2 : (y :: x :: remove_first x ys).Perm (x :: y :: remove_first x ys) :=
          List.Perm.swap x y _
        have h3 : x :: remove_first x (y :: ys) = x :: y :: remove_first x ys := by
          simp [remove_first, hyx]
        rw [h3]
        exact h1.trans h2

theorem fold_remove_of_perm {α : Type} [DecidableEq α] :
    ∀ (l a : List α), a.Perm l →
      l.foldl (fun acc x => remove_first x acc) a = [] := by
  intro l
  induction l with
  | nil => intro a h; simpa using h.eq_nil
  | cons x t ih =>
      intro a h
      have hx : x ∈ a := h.mem_iff.2 (List.mem_cons_self x t)
      have h2 : a.Perm (x :: remove_first x a) := remove_first_perm hx
      have h3 : (remove_first x a).Perm t := (h2.symm.trans h).cons_inv
      simpa [List.foldl_cons] using ih _ h3

theorem active_after_ons (hits : List (Json × Json)) (a : List (Nat × Json)) :
    active_after a (hits.map fun h => drum_note_on h.1 h.2)
      = (hits.map fun h => ((9 : Nat), h.1)).reverse ++ a := by
  induction hits generalizing a with
  | nil => rfl
  | cons x xs ih =>
      simp only [List.map_cons, active_after, List.foldl_cons, List.reverse_cons]
      have := ih (((9 : Nat), x.1) :: a)
      simp only [active_after] at this
      rw [show apply_event a (drum_note_on x.1 x.2) = ((9 : Nat), x.1) :: a from rfl]
      rw [this, List.append_assoc]
      rfl

theorem active_after_offs (hits : List (Json × Json)) (a : List (Nat × Json)) :
    active_after a (hits.map fun h => drum_note_off h.1)
      = (hits.map fun h => ((9 : Nat), h.1)).foldl (fun acc x => remove_first x acc) a := by
  induction hits generalizing a with
  | nil => rfl
  | cons x xs ih =>
      simp only [List.map_cons, active_after, List.foldl_cons]
      have := ih (remove_first ((9 : Nat), x.1) a)
      simp only [active_after] at this
      rw [show apply_event a (drum_note_off x.1) = remove_first ((9 : Nat), x.1) a from rfl]
      exact this

theorem step_effects_active (hits : List (Json × Json)) (note vel : Json) (d : ℚ) :
    active_after [] (step_effects hits note vel d) = [] := by
  rw [step_effects, active_after_append, active_after_append, active_after_append,
      active_after_ons, List.append_nil]
  have hmid : active_after ((hits.map fun h => ((9 : Nat), h.1)).reverse)
      [bass_note_on note vel, .sleepSec (d / 1000), bass_note_off note]
      = (hits.map fun h => ((9 : Nat), h.1)).reverse := by
    simp [active_after, apply_event, bass_note_on, bass_note_off, remove_first]
  rw [hmid, active_after_offs]
  rw [fold_remove_of_perm _ _ (List.reverse_perm _)]
  rfl

/-! ## Playback pass helper lemmas -/

theorem process_input_current (loader : PatchLoaderState) (st : LooperState)
    (k : Option KeyEvent) :
    (process_input loader st k).1.current_patch_key = st.current_patch_key := by
  cases k with
  | none => rfl
  | some e =>
      cases e with
      | esc => rfl
      | resize => rfl
      | keyUp => rfl
      | keyDown => rfl
      | char c =>
          simp only [process_input]
          split
          · split <;> rfl
          · rfl

theorem process_input_not_quit (loader : PatchLoaderState) (st : LooperState)
    (k : Option KeyEvent) (h : k ≠ some KeyEvent.esc) :
    (process_input loader st k).2 = false := by
  cases k with
  | none => rfl
  | some e =>
      cases e with
      | esc => exact absurd rfl h
      | resize => rfl
      | keyUp => rfl
      | keyDown => rfl
      | char c =>
          simp only [process_input]
          split
          · split <;> rfl
          · rfl

theorem redraw_clear_current (st : LooperState) :
    (if st.needs_full_redraw then { st with needs_full_redraw := false } else st).current_patch_key
      = st.current_patch_key := by
  split <;> rfl

theorem play_steps_current (loader : PatchLoaderState)
    (drum : List (List (Json × Json) × String)) :
    ∀ (steps : List (Json × Json × Json)) (idx : ℕ)
      (inputs : List (Option KeyEvent)) (st : LooperState),
      (play_steps loader drum steps idx inputs st).st.current_patch_key
        = st.current_patch_key := by
  intro steps
  induction steps with
  | nil => intro idx inputs st; rfl
  | cons e rest ih =>
      obtain ⟨note, vel, lab⟩ := e
      intro idx inputs st
      simp only [play_steps]
      have hst1 := redraw_clear_current st
      set st1 := if st.needs_full_redraw then { st with needs_full_redraw := false } else st
        with hdef
      have hpr := process_input_current loader st1 (inputs.headD none)
      cases hq : (process_input loader st1 (inputs.headD none)).2 with
      | true =>
          simp only [hq, if_true]
          rw [hpr, hst1]
      | false =>
          simp only [hq, Bool.false_eq_true, if_false]
          rw [ih, hpr, hst1]

theorem play_steps_completed (loader : PatchLoaderState)
    (drum : List (List (Json × Json) × String)) :
    ∀ (steps : List (Json × Json × Json)) (idx : ℕ)
      (inputs : List (Option KeyEvent)) (st : LooperState),
      (∀ k ∈ inputs, k ≠ some KeyEvent.esc) →
      (play_steps loader drum steps idx inputs st).completed = true := by
  intro steps
  induction steps with
  | nil => intro idx inputs st _; rfl
  | cons e rest ih =>
      obtain ⟨note, vel, lab⟩ := e
      intro idx inputs st hin
      simp only [play_steps]
      set st1 := if st.needs_full_redraw then { st with needs_full_redraw := false } else st
        with hdef
      have hhead : inputs.headD none ≠ some KeyEvent.esc := by
        cases inputs with
        | nil => simp
        | cons i t => simpa using hin i (List.mem_cons_self i t)
      have htail : ∀ k ∈ inputs.tail, k ≠ some KeyEvent.esc := by
        intro k hk
        cases inputs with
        | nil => simp at hk
        | cons i t => exact hin k (List.mem_cons_of_mem i hk)
      rw [process_input_not_quit loader st1 _ hhead]
      simp only [Bool.false_eq_true, if_false]
      exact ih _ _ _ htail

theorem play_steps_decomp (loader : PatchLoaderState)
    (drum : List (List (Json × Json) × String)) :
    ∀ (steps : List (Json × Json × Json)) (idx : ℕ)
      (inputs : List (Option KeyEvent)) (st : LooperState),
      (play_steps loader drum steps idx inputs st).completed = true →
      ∃ ts : List (List MidiEvent),
        (play_steps loader drum steps idx inputs st).trace = ts.flatten ∧
        ts.length = steps.length ∧
        ∀ j, j < steps.length →
          ∃ (d : ℚ) (note vel lab : Json),
            steps.get? j = some (note, vel, lab) ∧
            ts.get? j = some (step_effects (hits_at drum (idx + j)) note vel d) := by
  intro steps
  induction steps with
  | nil =>
      intro idx inputs st _
      exact ⟨[], rfl, rfl, fun j hj => absurd (by simp at hj) (fun h => h)⟩
  | cons e rest ih =>
      obtain ⟨note, vel, lab⟩ := e
      intro idx inputs st h
      simp only [play_steps] at h ⊢
      set st1 := if st.needs_full_redraw then { st with needs_full_redraw := false } else st
        with hdef
      cases hq : (process_input loader st1 (inputs.headD none)).2 with
      | true => rw [hq] at h; simp at h
      | false =>
          rw [hq] at h
          simp only [Bool.false_eq_true, if_false] at h ⊢
          have hcomp : (play_steps loader drum rest (idx + 1) inputs.tail
              (process_input loader st1 (inputs.headD none)).1).completed = true := h
          obtain ⟨ts', htr, hlen, hget⟩ := ih (idx + 1) inputs.tail
            (process_input loader st1 (inputs.headD none)).1 hcomp
          refine ⟨step_effects (hits_at drum idx) note vel
              (process_input loader st1 (inputs.headD none)).1.tempo.get_step_duration_ms
            :: ts', ?_, ?_, ?_⟩
          · exact congrArg (fun l => step_effects (hits_at drum idx) note vel
              (process_input loader st1 (inputs.headD none)).1.tempo.get_step_duration_ms ++ l) htr
          · exact congrArg Nat.succ hlen
          · intro j hj
            cases j with
            | zero =>
                exact ⟨(process_input loader st1 (inputs.headD none)).1.tempo.get_step_duration_ms,
                  note, vel, lab, rfl, rfl⟩
            | succ j' =>
                have hj' : j' < rest.length := Nat.lt_of_succ_lt_succ hj
                obtain ⟨d, n, v, lb, hs, ht⟩ := hget j' hj'
                refine ⟨d, n, v, lb, hs, ?_⟩
                rw [show idx + (j' + 1) = idx + 1 + j' from by omega]
                exact ht

theorem active_flatten_take (ts : List (List MidiEvent))
    (hall : ∀ t ∈ ts, active_after [] t = []) :
    ∀ k, active_after [] ((ts.take k).flatten) = [] := by
  induction ts with
  | nil => intro k; simp [active_after]
  | cons t rest ih =>
      intro k
      cases k with
      | zero => rfl
      | succ k' =>
          rw [List.take_succ_cons, List.flatten_cons, active_after_append,
              hall t (List.mem_cons_self t rest)]
          exact ih (fun u hu => hall u (List.mem_cons_of_mem t hu)) k'

/-! ## C3 -/

/-- C3: in every completed pass, the trace is exactly the concatenation
of one block per bass step; each block is `step_effects`: the step's
drum note-ons (channel 9) then the bass note-on (channel 1), the
tempo-derived hold, the matching note-offs for exactly the notes turned
on in the step, then the fixed 10 ms (`sleepSec (1/100)` seconds)
inter-step gap; consequently no note is sounding at any step boundary,
so nothing turned on in one step is still on when the next step's
note-ons are emitted. -/
theorem C3_per_step_on_off_pairing (loader : PatchLoaderState) (patch : Patch)
    (inputs : List (Option KeyEvent)) (st : LooperState)
    (h : (play_pattern_loop loader patch inputs st).completed = true) :
    ∃ ts : List (List MidiEvent),
      (play_pattern_loop loader patch inputs st).trace = ts.flatten ∧
      ts.length = patch.bass_pattern.length ∧
      (∀ j, j < patch.bass_pattern.length →
        ∃ (d : ℚ) (note vel lab : Json),
          patch.bass_pattern.get? j = some (note, vel, lab) ∧
          ts.get? j = some (step_effects (hits_at patch.drum_pattern j) note vel d)) ∧
      (∀ t ∈ ts, active_after [] t = []) ∧
      (∀ k, active_after [] ((ts.take k).flatten) = []) := by
  obtain ⟨ts, htr, hlen, hget⟩ :=
    play_steps_decomp loader patch.drum_pattern patch.bass_pattern 0 inputs st h
  simp only [Nat.zero_add] at hget
  have hall : ∀ t ∈ ts, active_after [] t = [] := by
    intro t ht
    obtain ⟨j, hj⟩ := List.mem_iff_get?.1 ht
    have hjlen : j < patch.bass_pattern.length := by
      rw [← hlen]
      exact (List.get?_eq_some.1 hj).1
    obtain ⟨d, n, v, lb, _, ht2⟩ := hget j hjlen
    rw [hj] at ht2
    rw [Option.some.inj ht2]
    exact step_effects_active _ n v d
  exact ⟨ts, htr, hlen, hget, hall, active_flatten_take ts hall⟩

/-- Witness for C3: after a full pass over a concrete patch (whose drum
sequence is even longer than its bass line), no note is left sounding. -/
theorem C3_witness :
    active_after []
      (play_pattern_loop PatchLoaderState.init mismatch_patch []
        (initLooperState none)).trace = [] := by
  obtain ⟨ts, htr, hlen, hget, hall, htake⟩ :=
    C3_per_step_on_off_pairing PatchLoaderState.init mismatch_patch []
      (initLooperState none) rfl
  have h := htake ts.length
  rw [List.take_length] at h
  rw [htr]
  exact h

/-! ## C7 -/

theorem drum_ons_of_append (l1 l2 : List MidiEvent) :
    drum_ons_of (l1 ++ l2) = drum_ons_of l1 ++ drum_ons_of l2 :=
  List.filterMap_append l1 l2 _

theorem drum_ons_of_flatten (ts : List (List MidiEvent)) :
    drum_ons_of ts.flatten = (ts.map drum_ons_of).flatten := by
  induction ts with
  | nil => rfl
  | cons t rest ih =>
      rw [List.flatten_cons, drum_ons_of_append, ih, List.map_cons, List.flatten_cons]

theorem drum_ons_of_drum_ons (hits : List (Json × Json)) :
    drum_ons_of (hits.map fun h => drum_note_on h.1 h.2) = hits := by
  induction hits with
  | nil => rfl
  | cons x xs ih =>
      simp only [List.map_cons, drum_ons_of, List.filterMap_cons] at ih ⊢
      rw [show (match drum_note_on x.1 x.2 with
            | .noteOn 9 n v => some (n, v)
            | _ => none) = some (x.1, x.2) from rfl]
      rw [ih]

theorem drum_ons_of_drum_offs (hits : List (Json × Json)) :
    drum_ons_of (hits.map fun h => drum_note_off h.1) = [] := by
  induction hits with
  | nil => rfl
  | cons x xs ih =>
      simp only [List.map_cons, drum_ons_of, List.filterMap_cons] at ih ⊢
      exact ih

theorem drum_ons_of_step_effects (hits : List (Json × Json)) (note vel : Json)
    (d : ℚ) : drum_ons_of (step_effects hits note vel d) = hits := by
  rw [step_effects, drum_ons_of_append, drum_ons_of_append, drum_ons_of_append,
      drum_ons_of_drum_ons, drum_ons_of_drum_offs]
  rw [show drum_ons_of [bass_note_on note vel, .sleepSec (d / 1000),
        bass_note_off note] = [] from rfl]
  rw [show drum_ons_of [MidiEvent.sleepSec (1 / 100)] = [] from rfl]
  simp

/-- C7: whatever the relative lengths of the drum and bass step
sequences, a pass with no quit input runs to completion (no error); the
drum hits played at step `j` are `hits_at`: the drum entry at `j` when
`j` is in range and the empty set otherwise; and the drum-channel
note-ons of the whole pass are exactly the per-step hit lists for the
bass indices `0..len-1`, so drum entries beyond the bass length are
never played. -/
theorem C7_length_mismatch_is_safe (loader : PatchLoaderState) (patch : Patch)
    (inputs : List (Option KeyEvent)) (st : LooperState)
    (hin : ∀ k ∈ inputs, k ≠ some KeyEvent.esc) :
    (play_pattern_loop loader patch inputs st).completed = true ∧
    (∀ j (hj : j < patch.drum_pattern.length),
        hits_at patch.drum_pattern j = (patch.drum_pattern.get ⟨j, hj⟩).1) ∧
    (∀ j, patch.drum_pattern.length ≤ j → hits_at patch.drum_pattern j = []) ∧
    drum_ons_of (play_pattern_loop loader patch inputs st).trace
      = ((List.range patch.bass_pattern.length).map
          (hits_at patch.drum_pattern)).flatten := by
  have hcomp := play_steps_completed loader patch.drum_pattern patch.bass_pattern
    0 inputs st hin
  refine ⟨hcomp, ?_, ?_, ?_⟩
  · intro j hj
    simp [hits_at, hj]
  · intro j hj
    simp [hits_at, Nat.not_lt.2 hj]
  · obtain ⟨ts, htr, hlen, hget⟩ :=
      play_steps_decomp loader patch.drum_pattern patch.bass_pattern 0 inputs st hcomp
    simp only [Nat.zero_add] at hget
    simp only [play_pattern_loop]
    rw [htr, drum_ons_of_flatten]
    congr 1
    apply List.ext
    intro j
    by_cases hj : j < patch.bass_pattern.length
    · obtain ⟨d, n, v, lb, _, ht⟩ := hget j hj
      rw [List.get?_map, ht]
      rw [List.get?_map, List.get?_range hj]
      simp [drum_ons_of_step_effects]
    · have h1 : ts.get? j = none := List.get?_eq_none.2 (by omega)
      have h2 : (List.range patch.bass_pattern.length).get? j = none :=
        List.get?_eq_none.2 (by simp only [List.length_range]; omega)
      rw [List.get?_map, List.get?_map, h1, h2]
      rfl

/-- Witness for C7: `mismatch_patch` has three drum steps but only two
bass steps; a pass completes and plays only the first two drum entries
(the hit at drum index 2 is never emitted). -/
theorem C7_witness :
    (play_pattern_loop PatchLoaderState.init mismatch_patch []
        (initLooperState none)).completed = true ∧
    drum_ons_of (play_pattern_loop PatchLoaderState.init mismatch_patch []
        (initLooperState none)).trace = [(.num 42, .num 75)] := by
  have h := C7_length_mismatch_is_safe PatchLoaderState.init mismatch_patch []
    (initLooperState none) (by intro k hk; simp at hk)
  refine ⟨h.1, ?_⟩
  rw [h.2.2.2]
  decide

/-! ## C1 -/

/-- C1: during a pass, the identity of the current pattern
(`current_patch_key`, and the `current_patch` the pass was invoked
with, which the pass never modifies) is unchanged whatever inputs
arrive; a recognized slot key only records the queued patch and queued
slot key (plus a redraw request) — regardless of what was queued
before, so a second press overwrites the single-slot queue and depth
never exceeds one; and only the loop-boundary swap makes the queued
patch current, clearing both queue fields. -/
theorem C1_mid_pass_queue_only (loader : PatchLoaderState) (patch q : Patch)
    (st : LooperState) (inputs : List (Option KeyEvent)) (c : Char)
    (hc : c.toLower ∈ PATCH_KEYS)
    (hq : get_patch_by_key loader c.toLower = some q) :
    (play_pattern_loop loader patch inputs st).st.current_patch_key
        = st.current_patch_key ∧
    process_input loader st (some (.char c))
        = ({ st with next_patch := some q, next_patch_key := some c.toLower, needs_full_redraw := true }, false) ∧
    (∀ (p : Patch) (st' : LooperState), st'.next_patch = some p →
        (run_boundary loader patch st').1 = p ∧
        (run_boundary loader patch st').2.next_patch = none ∧
        (run_boundary loader patch st').2.next_patch_key = none) := by
  refine ⟨play_steps_current loader patch.drum_pattern patch.bass_pattern 0 inputs st,
    ?_, ?_⟩
  · simp only [process_input, if_pos hc, hq]
  · intro p st' hp
    simp [run_boundary, hp]

/-- Witness for C1: pressing `'q'` during a pass leaves the current
slot key `'w'` untouched, and the boundary swap then installs the
queued patch. -/
theorem C1_witness :
    (play_pattern_loop loaderA (minimal_patch "a") [some (.char 'q')]
        (initLooperState (some 'w'))).st.current_patch_key = some 'w' ∧
    (run_boundary loaderA (minimal_patch "a")
        { initLooperState (some 'w') with next_patch := some (minimal_patch "a") }).1
      = minimal_patch "a" := by
  have h := C1_mid_pass_queue_only loaderA (minimal_patch "a") (minimal_patch "a")
    (initLooperState (some 'w')) [some (.char 'q')] 'q' (by decide) (by decide)
  exact ⟨h.1, (h.2.2 (minimal_patch "a") _ rfl).1⟩

/-! ## C10 -/

theorem find_key_for_eq_none {l : List (Char × Patch)} {p : Patch}
    (h : ∀ kq ∈ l, kq.2 ≠ p) : find_key_for l p = none := by
  induction l with
  | nil => rfl
  | cons kq rest ih =>
      obtain ⟨k, q⟩ := kq
      have hne : q ≠ p := h (k, q) (List.mem_cons_self _ _)
      simp only [find_key_for, if_neg hne]
      exact ih (fun x hx => h x (List.mem_cons_of_mem _ hx))

theorem find_key_for_mem {l : List (Char × Patch)} {p : Patch} {k : Char}
    (h : find_key_for l p = some k) : (k, p) ∈ l := by
  induction l with
  | nil => exact absurd h (by simp [find_key_for])
  | cons kq rest ih =>
      obtain ⟨k', q⟩ := kq
      by_cases hqp : q = p
      · subst hqp
        simp only [find_key_for, if_pos rfl] at h
        rw [Option.some.inj h]
        exact List.mem_cons_self _ _
      · simp only [find_key_for, if_neg hqp] at h
        exact List.mem_cons_of_mem _ (ih h)

theorem find_key_for_isSome {l : List (Char × Patch)} {p : Patch}
    (h : ∃ kq ∈ l, kq.2 = p) : (find_key_for l p).isSome := by
  induction l with
  | nil => simp at h
  | cons kq rest ih =>
      obtain ⟨k', q⟩ := kq
      by_cases hqp : q = p
      · simp [find_key_for, hqp]
      · simp only [find_key_for, if_neg hqp]
        apply ih
        obtain ⟨x, hx, hxp⟩ := h
        rcases List.mem_cons.1 hx with h' | h'
        · rw [h'] at hxp
          exact absurd hxp hqp
        · exact ⟨x, h', hxp⟩

/-- C10: when a patch is queued, the loop-boundary swap always installs
the queued in-memory patch data as current — also when no stored patch
equals it any more (e.g. removed by an intervening scan), so the swap
never no-ops back to the old pattern — and the recorded current slot
key is updated (to a slot whose stored patch equals the queued data)
only when such a slot exists, otherwise it keeps its previous value;
the queue fields are cleared either way. -/
theorem C10_swap_installs_queued (loader : PatchLoaderState) (cur p : Patch)
    (st : LooperState) (h : st.next_patch = some p) :
    (run_boundary loader cur st).1 = p ∧
    (run_boundary loader cur st).2.next_patch = none ∧
    (run_boundary loader cur st).2.next_patch_key = none ∧
    ((∃ kq ∈ get_all_patches loader, kq.2 = p) →
      ∃ k, (k, p) ∈ get_all_patches loader ∧
        (run_boundary loader cur st).2.current_patch_key = some k) ∧
    ((∀ kq ∈ get_all_patches loader, kq.2 ≠ p) →
      (run_boundary loader cur st).2.current_patch_key = st.current_patch_key) := by
  refine ⟨?_, ?_, ?_, ?_, ?_⟩
  · simp only [run_boundary, h]
  · simp only [run_boundary, h]
  · simp only [run_boundary, h]
  · intro hex
    obtain ⟨k, hk⟩ := Option.isSome_iff_exists.1 (find_key_for_isSome hex)
    refine ⟨k, find_key_for_mem hk, ?_⟩
    simp only [run_boundary, h]
    simp [hk]
  · intro hall
    simp only [run_boundary, h]
    simp [find_key_for_eq_none hall]

/-- Witness for C10: with `mismatch_patch` queued but absent from the
store, the swap still installs it, clears the queue, and keeps the old
current slot key `'w'`. -/
theorem C10_witness :
    (run_boundary loaderA (minimal_patch "a")
        { initLooperState (some 'w') with next_patch := some mismatch_patch }).1
      = mismatch_patch ∧
    (run_boundary loaderA (minimal_patch "a")
        { initLooperState (some 'w') with next_patch := some mismatch_patch }).2.next_patch
      = none ∧
    (run_boundary loaderA (minimal_patch "a")
        { initLooperState (some 'w') with next_patch := some mismatch_patch }).2.current_patch_key
      = some 'w' := by
  have h := C10_swap_installs_queued loaderA (minimal_patch "a") mismatch_patch
    { initLooperState (some 'w') with next_patch := some mismatch_patch } rfl
  exact ⟨h.1, h.2.1, (h.2.2.2.2 (by decide)).trans rfl⟩

/-! ## C8 -/

/-- C8: if after the initial scan no stored pattern holds any slot,
`run` reports the user-visible no-patches message and returns without
entering the playback loop or emitting any sound event (empty trace). -/
theorem C8_no_patches_never_plays (fuel : ℕ) (fs : FS) (now : ℚ)
    (st0 : PatchLoaderState) (scans : OuterSchedule)
    (inputs : List (List (Option KeyEvent)))
    (h : get_all_patches (scan_patches fs now st0).2 = []) :
    run fuel fs now st0 scans inputs
      = (.noPatches "ERROR: No patches found in patches/ directory!", []) := by
  simp only [run, get_first_patch, h, List.head?]

/-- Witness for C8: an empty patches directory yields the no-patches
outcome and an empty trace. -/
theorem C8_witness :
    run 3 ⟨true, []⟩ 1 PatchLoaderState.init [] []
      = (.noPatches "ERROR: No patches found in patches/ directory!", []) :=
  C8_no_patches_never_plays 3 ⟨true, []⟩ 1 PatchLoaderState.init [] [] (by decide)
